import Mathlib

/-!
Shallow embedding of `ford_fulkerson.py`.

The program works on a `networkx.DiGraph` whose edges carry three integer
attributes (`capacity`, `flow`, `residual`).  All node labels occurring in the
program are single-character strings, so nodes are modelled as `Char`
(the Python membership test `source in edge[0]` coincides with equality for
one-character labels).  Edges are kept in the order `networkx` iterates them
for the sample graph, which is the insertion order of `add_sample_nodes_edges`.

`FordFulkerson.path_finder` performs a random walk: at each step it filters
the edges whose tail is the current node, picks a random one (`random.choice`),
and either extends the current path or, on reaching the sink, records the path
(if new) and restarts from the source (the Python recursion at line 148 with
`self.path` reset is exactly a restart).  The walk stops when the visited list
reaches length 7 (loop condition `len(self.visited) != 7`), or when
`choice([])` raises `IndexError` (a node with no outgoing edge), which unwinds
every recursive frame; `self.retry` is never decremented.  Randomness is
modelled by a finite list of `Nat` choices, the pick being `possible[c % len]`;
`none` means the supplied choices were exhausted before the program stopped.
-/

structure EdgeRec where
  src : Char
  dst : Char
  capacity : Int
  flow : Int
  residual : Int
deriving DecidableEq, Repr

/-- The sample graph of `Graph.add_sample_nodes_edges`, in `networkx`
iteration order (source node insertion order, then successor insertion
order). -/
def sampleEdges : List EdgeRec :=
  [⟨'S', 'A', 9, 0, 9⟩, ⟨'S', 'B', 9, 0, 9⟩, ⟨'A', 'B', 10, 0, 10⟩,
   ⟨'A', 'C', 8, 0, 8⟩, ⟨'B', 'C', 1, 0, 1⟩, ⟨'B', 'D', 3, 0, 3⟩,
   ⟨'C', 'T', 10, 0, 10⟩, ⟨'D', 'C', 8, 0, 8⟩, ⟨'D', 'T', 7, 0, 7⟩]

/-- One flattened execution of `FordFulkerson.path_finder` (lines 125-153).
State: current node `u`, current path string `path`, list `visited`;
each iteration re-checks the loop condition (`source != sink`,
`len(self.visited) != 7`), computes `possible`, and consumes one random
choice.  Reaching the sink appends the closing node, records the path when
new, and restarts at the source with a fresh path (the recursive call). -/
def pfLoop (es : List EdgeRec) (src snk : Char) :
    List Nat → Char → List Char → List (List Char) → Option (List (List Char))
  | [], u, _, visited =>
    if u = snk then some visited
    else if visited.length = 7 then some visited
    else if (es.filter fun e => e.src == u).length = 0 then some visited
    else none
  | c :: cs, u, path, visited =>
    if u = snk then some visited
    else if visited.length = 7 then some visited
    else
      let possible := es.filter fun e => e.src == u
      if hp : possible.length = 0 then some visited
      else
        let e := possible.get ⟨c % possible.length, Nat.mod_lt c (Nat.pos_of_ne_zero hp)⟩
        if e.dst = snk then
          pfLoop es src snk cs src [src]
            (if (path ++ [e.dst]) ∈ visited then visited else visited ++ [path ++ [e.dst]])
        else
          pfLoop es src snk cs e.dst (path ++ [e.dst]) visited

/-- `FordFulkerson.path_finder(self.source, self.sink)` started as in `main`:
current node is the source, `self.path` holds just the source, `self.visited`
is empty. -/
def pfRun (es : List EdgeRec) (src snk : Char) (cs : List Nat) :
    Option (List (List Char)) :=
  pfLoop es src snk cs src [src] []

/-- The inner loop of `flow_network` lines 162-166: walks the characters of a
recorded path and collects consecutive pairs, stopping at the first character
equal to the last one (`if path[i] == path[-1]: break`). -/
def pairsAux (last : Char) : List Char → List (Char × Char)
  | c :: d :: rest => if c = last then [] else (c, d) :: pairsAux last (d :: rest)
  | _ => []

def pathPairs (p : List Char) : List (Char × Char) :=
  match p.getLast? with
  | some last => pairsAux last p
  | none => []

/-- The endpoint/capacity projection of the edge list; `flow_network`'s
residual-capacity pass reads only these components, and the update pass never
changes them. -/
def edgeKey (e : EdgeRec) : Char × Char × Int := (e.src, e.dst, e.capacity)

def keysCaps (es : List EdgeRec) : List (Char × Char × Int) := es.map edgeKey

/-- Line 173: `temp = [edge for edge in self.edges(data=True) if node[0] in
edge and node[1] in edge]` — membership of a one-character label in the tuple
`(u, v, data)` tests equality with either endpoint.  `flow_network` uses
`temp[0]`, the first match, here returned with its index. -/
def matchesPair (a b : Char) (k : Char × Char × Int) : Bool :=
  (a == k.1 || a == k.2.1) && (b == k.1 || b == k.2.1)

def findKC (a b : Char) : List (Char × Char × Int) → Nat →
    Option (Nat × (Char × Char × Int))
  | [], _ => none
  | k :: rest, i => if matchesPair a b k then some (i, k) else findKC a b rest (i + 1)

/-- Result of the residual-capacity pass over one path (lines 168-184):
the indices of the `temp[0]` edges (`r_edges`), the computed
`residual_capacity`, the last value assigned to the throwaway variable `_`
during this pass (line 181), and whether every `temp[0]` lookup succeeded
(`temp[0]` on an empty `temp` raises `IndexError`). -/
structure RCRes where
  idxs : List Nat
  rc : Int
  setOpt : Option (Char × Char)
  ok : Bool
deriving DecidableEq, Repr

def rcStep (kcs : List (Char × Char × Int)) (acc : RCRes) (pr : Char × Char) : RCRes :=
  if acc.ok = false then acc
  else
    match findKC pr.1 pr.2 kcs 0 with
    | none => { acc with ok := false }
    | some (i, k) =>
      if acc.rc = 0 then { acc with idxs := acc.idxs ++ [i], rc := k.2.2 }
      else if k.2.2 < acc.rc then
        { acc with idxs := acc.idxs ++ [i], rc := k.2.2, setOpt := some (k.1, k.2.1) }
      else { acc with idxs := acc.idxs ++ [i] }

def rcFold (kcs : List (Char × Char × Int)) (pairs : List (Char × Char)) : RCRes :=
  pairs.foldl (rcStep kcs) ⟨[], 0, none, true⟩

/-- The update loop of `flow_network` lines 196-210: for each recorded edge in
order, if its flow already equals its capacity, or adding the path's
`residual_capacity` would exceed the capacity, stop processing this path
(`break`), leaving the remaining edges untouched; otherwise add
`residual_capacity` to the flow and subtract it from the stored residual. -/
def updateLoop (rc : Int) : List EdgeRec → List Nat → List EdgeRec
  | es, [] => es
  | es, i :: rest =>
    match es[i]? with
    | none => es
    | some e =>
      if e.flow ≠ e.capacity then
        if e.flow + rc > e.capacity then es
        else
          updateLoop rc
            (es.set i { e with flow := e.flow + rc, residual := e.residual - rc }) rest
      else es

/-- Mutable state of `flow_network`: the live edge list, the `maxflow` list of
already-seen bottleneck values, the last value assigned to `_` (line 181;
`None` models "never assigned", in which case the `print` at line 193 raises
`NameError`), and whether an uncaught exception has aborted the call. -/
structure FNState where
  edges : List EdgeRec
  maxflow : List Int
  lastFull : Option (Char × Char)
  crashed : Bool
deriving DecidableEq, Repr

/-- Processing of one recorded path by `flow_network` (lines 168-212). -/
def processPath (s : FNState) (p : List Char) : FNState :=
  if s.crashed then s
  else
    let r := rcFold (keysCaps s.edges) (pathPairs p)
    if r.ok = false then { s with crashed := true }
    else
      let lf := match r.setOpt with
        | some k => some k
        | none => s.lastFull
      if r.rc ∈ s.maxflow then
        match lf with
        | none => { s with crashed := true }
        | some k => { s with lastFull := some k }
      else
        { edges := updateLoop r.rc s.edges r.idxs,
          maxflow := s.maxflow ++ [r.rc],
          lastFull := lf,
          crashed := false }

/-- Append an element unless already present; this is how both the `visit`
dictionary keys and the `maxflow` list grow. -/
def dedupPush {α : Type} [DecidableEq α] (acc : List α) (x : α) : List α :=
  if x ∈ acc then acc else acc ++ [x]

/-- First-occurrence deduplication; Python `dict` keys keep the position of the
first insertion. -/
def dedupFold {α : Type} [DecidableEq α] (l : List α) : List α :=
  l.foldl dedupPush []

/-- `FordFulkerson.flow_network` (lines 155-213): builds the `visit` dictionary
keyed by the distinct visited path strings (first-occurrence order), then
processes each key; at line 213 it prints `sum(maxflow)`, meaningful only when
no exception aborted it. -/
def fnRun (visited : List (List Char)) (es : List EdgeRec) : FNState :=
  (dedupFold visited).foldl processPath ⟨es, [], none, false⟩

/-- Flow currently stored on the edge `(a, b)` (first matching edge), `-1`
when absent. -/
def flowOf (es : List EdgeRec) (a b : Char) : Int :=
  ((es.find? fun e => e.src == a && e.dst == b).map EdgeRec.flow).getD (-1)

def inflow (es : List EdgeRec) (n : Char) : Int :=
  ((es.filter fun e => e.dst == n).map EdgeRec.flow).sum

def outflow (es : List EdgeRec) (n : Char) : Int :=
  ((es.filter fun e => e.src == n).map EdgeRec.flow).sum

/-- Follows the spec's words (§3/§4.4): the residual capacity of a forward arc
is `capacity - flow`; these are the residuals along a path's arcs, read off the
current edge state. -/
def residualsAlong (es : List EdgeRec) (pairs : List (Char × Char)) : List Int :=
  pairs.filterMap fun pr =>
    (es.find? fun e => e.src == pr.1 && e.dst == pr.2).map fun e => e.capacity - e.flow

/-- The seven source-to-sink walks of the sample graph. -/
def sevenPaths : List (List Char) :=
  [['S', 'A', 'C', 'T'], ['S', 'A', 'B', 'C', 'T'], ['S', 'A', 'B', 'D', 'T'],
   ['S', 'A', 'B', 'D', 'C', 'T'], ['S', 'B', 'C', 'T'], ['S', 'B', 'D', 'T'],
   ['S', 'B', 'D', 'C', 'T']]

/-- The `residual_capacity` that `flow_network` computes for a path of the
sample graph; it depends only on the endpoint/capacity projection of the edge
list, which the update loop never changes. -/
def rcOf (p : List Char) : Int := (rcFold (keysCaps sampleEdges) (pathPairs p)).rc

/-- For each non-sink node of the sample graph, the possible continuations of a
random walk from that node to the sink. -/
def sufSet : Char → List (List Char)
  | 'S' => [['A', 'C', 'T'], ['A', 'B', 'C', 'T'], ['A', 'B', 'D', 'T'],
            ['A', 'B', 'D', 'C', 'T'], ['B', 'C', 'T'], ['B', 'D', 'T'],
            ['B', 'D', 'C', 'T']]
  | 'A' => [['C', 'T'], ['B', 'C', 'T'], ['B', 'D', 'T'], ['B', 'D', 'C', 'T']]
  | 'B' => [['C', 'T'], ['D', 'T'], ['D', 'C', 'T']]
  | 'C' => [['T']]
  | 'D' => [['T'], ['C', 'T']]
  | _ => []

/-- Choice sequence whose walks find the seven sample paths in the order
`SACT, SBDCT, SABCT, SABDT, SBCT, SBDT, SABDCT`. -/
def cs1 : List Nat :=
  [0, 1, 0] ++ [1, 1, 0, 0] ++ [0, 0, 0, 0] ++ [0, 0, 1, 1] ++ [1, 0, 0] ++
  [1, 1, 1] ++ [0, 0, 1, 0, 0]

def vOrder1 : List (List Char) :=
  [['S', 'A', 'C', 'T'], ['S', 'B', 'D', 'C', 'T'], ['S', 'A', 'B', 'C', 'T'],
   ['S', 'A', 'B', 'D', 'T'], ['S', 'B', 'C', 'T'], ['S', 'B', 'D', 'T'],
   ['S', 'A', 'B', 'D', 'C', 'T']]

/-- Choice sequence whose walks find the seven sample paths in the order
`SBDT, SACT, SABCT, SABDT, SBCT, SBDCT, SABDCT`. -/
def cs2 : List Nat :=
  [1, 1, 1] ++ [0, 1, 0] ++ [0, 0, 0, 0] ++ [0, 0, 1, 1] ++ [1, 0, 0] ++
  [1, 1, 0, 0] ++ [0, 0, 1, 0, 0]

def vOrder2 : List (List Char) :=
  [['S', 'B', 'D', 'T'], ['S', 'A', 'C', 'T'], ['S', 'A', 'B', 'C', 'T'],
   ['S', 'A', 'B', 'D', 'T'], ['S', 'B', 'C', 'T'], ['S', 'B', 'D', 'C', 'T'],
   ['S', 'A', 'B', 'D', 'C', 'T']]

/-- A graph whose sink `T` is unreachable from the source `S` and in which the
random walk from `S` cycles forever between `S` and `A`. -/
def cycEdges : List EdgeRec :=
  [⟨'S', 'A', 5, 0, 5⟩, ⟨'A', 'S', 5, 0, 5⟩, ⟨'B', 'T', 5, 0, 5⟩]

/-- The sample graph with all source-incident edges removed (the disconnection
scenario of spec §8). -/
def discEdges : List EdgeRec :=
  [⟨'A', 'B', 10, 0, 10⟩, ⟨'A', 'C', 8, 0, 8⟩, ⟨'B', 'C', 1, 0, 1⟩,
   ⟨'B', 'D', 3, 0, 3⟩, ⟨'C', 'T', 10, 0, 10⟩, ⟨'D', 'C', 8, 0, 8⟩,
   ⟨'D', 'T', 7, 0, 7⟩]

/-- Every edge's flow lies within `[0, capacity]`. -/
def flowInv (es : List EdgeRec) : Prop := ∀ e ∈ es, 0 ≤ e.flow ∧ e.flow ≤ e.capacity

instance (es : List EdgeRec) : Decidable (flowInv es) := by
  unfold flowInv; infer_instance

/-- All capacities are non-negative. -/
def capsNonneg (es : List EdgeRec) : Prop := ∀ e ∈ es, 0 ≤ e.capacity

instance (es : List EdgeRec) : Decidable (capsNonneg es) := by
  unfold capsNonneg; infer_instance

/-- Pointwise comparison of the flows of two edge lists of the same shape. -/
def flowsLe (es es' : List EdgeRec) : Prop :=
  List.Forall₂ (fun a b => a.flow ≤ b.flow) es es'

/-- Edge state after `flow_network` has processed `S→A→C→T` on the fresh
sample graph. -/
def esA1 : List EdgeRec :=
  [⟨'S', 'A', 9, 8, 1⟩, ⟨'S', 'B', 9, 0, 9⟩, ⟨'A', 'B', 10, 0, 10⟩,
   ⟨'A', 'C', 8, 8, 0⟩, ⟨'B', 'C', 1, 0, 1⟩, ⟨'B', 'D', 3, 0, 3⟩,
   ⟨'C', 'T', 10, 8, 2⟩, ⟨'D', 'C', 8, 0, 8⟩, ⟨'D', 'T', 7, 0, 7⟩]

/-- Edge state after additionally processing `S→B→D→C→T` (its last edge `C→T`
is left untouched by the aborted update). -/
def esA2 : List EdgeRec :=
  [⟨'S', 'A', 9, 8, 1⟩, ⟨'S', 'B', 9, 3, 6⟩, ⟨'A', 'B', 10, 0, 10⟩,
   ⟨'A', 'C', 8, 8, 0⟩, ⟨'B', 'C', 1, 0, 1⟩, ⟨'B', 'D', 3, 3, 0⟩,
   ⟨'C', 'T', 10, 8, 2⟩, ⟨'D', 'C', 8, 3, 5⟩, ⟨'D', 'T', 7, 0, 7⟩]

/-- Edge state after additionally processing `S→A→B→C→T`; the remaining four
paths of `vOrder1` are all skipped as duplicate bottleneck values. -/
def esA3 : List EdgeRec :=
  [⟨'S', 'A', 9, 9, 0⟩, ⟨'S', 'B', 9, 3, 6⟩, ⟨'A', 'B', 10, 1, 9⟩,
   ⟨'A', 'C', 8, 8, 0⟩, ⟨'B', 'C', 1, 1, 0⟩, ⟨'B', 'D', 3, 3, 0⟩,
   ⟨'C', 'T', 10, 9, 1⟩, ⟨'D', 'C', 8, 3, 5⟩, ⟨'D', 'T', 7, 0, 7⟩]

def runA1 : FNState := ⟨esA1, [8], some ('A', 'C'), false⟩

def runA2 : FNState := ⟨esA2, [8, 3], some ('B', 'D'), false⟩

def runA3 : FNState := ⟨esA3, [8, 3, 1], some ('B', 'C'), false⟩

def runA4 : FNState := ⟨esA3, [8, 3, 1], some ('B', 'D'), false⟩

/-- Edge states of the `vOrder2` run, after `S→B→D→T`, then `S→A→C→T`, then
`S→A→B→C→T`; the remaining four paths are skipped as duplicates. -/
def esB1 : List EdgeRec :=
  [⟨'S', 'A', 9, 0, 9⟩, ⟨'S', 'B', 9, 3, 6⟩, ⟨'A', 'B', 10, 0, 10⟩,
   ⟨'A', 'C', 8, 0, 8⟩, ⟨'B', 'C', 1, 0, 1⟩, ⟨'B', 'D', 3, 3, 0⟩,
   ⟨'C', 'T', 10, 0, 10⟩, ⟨'D', 'C', 8, 0, 8⟩, ⟨'D', 'T', 7, 3, 4⟩]

def esB2 : List EdgeRec :=
  [⟨'S', 'A', 9, 8, 1⟩, ⟨'S', 'B', 9, 3, 6⟩, ⟨'A', 'B', 10, 0, 10⟩,
   ⟨'A', 'C', 8, 8, 0⟩, ⟨'B', 'C', 1, 0, 1⟩, ⟨'B', 'D', 3, 3, 0⟩,
   ⟨'C', 'T', 10, 8, 2⟩, ⟨'D', 'C', 8, 0, 8⟩, ⟨'D', 'T', 7, 3, 4⟩]

def esB3 : List EdgeRec :=
  [⟨'S', 'A', 9, 9, 0⟩, ⟨'S', 'B', 9, 3, 6⟩, ⟨'A', 'B', 10, 1, 9⟩,
   ⟨'A', 'C', 8, 8, 0⟩, ⟨'B', 'C', 1, 1, 0⟩, ⟨'B', 'D', 3, 3, 0⟩,
   ⟨'C', 'T', 10, 9, 1⟩, ⟨'D', 'C', 8, 0, 8⟩, ⟨'D', 'T', 7, 3, 4⟩]

def runB1 : FNState := ⟨esB1, [3], some ('B', 'D'), false⟩

def runB2 : FNState := ⟨esB2, [3, 8], some ('A', 'C'), false⟩

def runB3 : FNState := ⟨esB3, [3, 8, 1], some ('B', 'C'), false⟩

def runB4 : FNState := ⟨esB3, [3, 8, 1], some ('B', 'D'), false⟩

lemma possS : List.filter (fun e => e.src == 'S') sampleEdges =
    [⟨'S', 'A', 9, 0, 9⟩, ⟨'S', 'B', 9, 0, 9⟩] := rfl

lemma possA : List.filter (fun e => e.src == 'A') sampleEdges =
    [⟨'A', 'B', 10, 0, 10⟩, ⟨'A', 'C', 8, 0, 8⟩] := rfl

lemma possB : List.filter (fun e => e.src == 'B') sampleEdges =
    [⟨'B', 'C', 1, 0, 1⟩, ⟨'B', 'D', 3, 0, 3⟩] := rfl

lemma possC : List.filter (fun e => e.src == 'C') sampleEdges =
    [⟨'C', 'T', 10, 0, 10⟩] := rfl

lemma possD : List.filter (fun e => e.src == 'D') sampleEdges =
    [⟨'D', 'C', 8, 0, 8⟩, ⟨'D', 'T', 7, 0, 7⟩] := rfl

lemma nodupPush {α : Type} (l : List α) (x : α) (h : l.Nodup) (hx : x ∉ l) :
    (l ++ [x]).Nodup := by
  rw [List.nodup_append]
  exact ⟨h, List.nodup_singleton x, fun a ha hb => hx (by rwa [List.mem_singleton.mp hb] at ha)⟩

set_option maxHeartbeats 1600000 in
lemma pfLoop_sample : ∀ (cs : List Nat) (u : Char) (path : List Char)
    (visited v : List (List Char)),
    u ∈ (['S', 'A', 'B', 'C', 'D'] : List Char) →
    (∀ s ∈ sufSet u, path ++ s ∈ sevenPaths) →
    visited.Nodup → (∀ w ∈ visited, w ∈ sevenPaths) →
    pfLoop sampleEdges 'S' 'T' cs u path visited = some v →
    v.Nodup ∧ (∀ w ∈ v, w ∈ sevenPaths) ∧ v.length = 7 := by
  intro cs
  induction cs with
  | nil =>
    intro u path visited v hu hpath hnd hsub hrun
    simp only [List.mem_cons, List.not_mem_nil, or_false] at hu
    by_cases h7 : visited.length = 7
    · rcases hu with rfl | rfl | rfl | rfl | rfl <;>
      · simp only [pfLoop, possS, possA, possB, possC, possD, h7, Char.reduceEq,
          reduceIte, Option.some.injEq] at hrun
        subst hrun
        exact ⟨hnd, hsub, h7⟩
    · rcases hu with rfl | rfl | rfl | rfl | rfl <;>
      · simp only [pfLoop, possS, possA, possB, possC, possD, h7, Char.reduceEq,
          reduceIte, List.length_cons, List.length_nil, reduceDIte] at hrun
        exact absurd hrun (by simp)
  | cons c cs ih =>
    intro u path visited v hu hpath hnd hsub hrun
    simp only [List.mem_cons, List.not_mem_nil, or_false] at hu
    by_cases h7 : visited.length = 7
    · rcases hu with rfl | rfl | rfl | rfl | rfl <;>
      · simp only [pfLoop, h7, Char.reduceEq, reduceIte, Option.some.injEq] at hrun
        subst hrun
        exact ⟨hnd, hsub, h7⟩
    · rcases hu with rfl | rfl | rfl | rfl | rfl
      · -- u = 'S'
        simp only [pfLoop, possS] at hrun
        rcases Nat.mod_two_eq_zero_or_one c with h2 | h2 <;>
          simp only [h2, h7, List.length_cons, List.length_nil, List.get, reduceIte,
            reduceDIte, Char.reduceEq] at hrun
        · exact ih 'A' (path ++ ['A']) visited v (by decide)
            (fun s hs => by
              rw [List.append_assoc]
              exact hpath _ ((by decide : ∀ s ∈ sufSet 'A', 'A' :: s ∈ sufSet 'S') s hs))
            hnd hsub hrun
        · exact ih 'B' (path ++ ['B']) visited v (by decide)
            (fun s hs => by
              rw [List.append_assoc]
              exact hpath _ ((by decide : ∀ s ∈ sufSet 'B', 'B' :: s ∈ sufSet 'S') s hs))
            hnd hsub hrun
      · -- u = 'A'
        simp only [pfLoop, possA] at hrun
        rcases Nat.mod_two_eq_zero_or_one c with h2 | h2 <;>
          simp only [h2, h7, List.length_cons, List.length_nil, List.get, reduceIte,
            reduceDIte, Char.reduceEq] at hrun
        · exact ih 'B' (path ++ ['B']) visited v (by decide)
            (fun s hs => by
              rw [List.append_assoc]
              exact hpath _ ((by decide : ∀ s ∈ sufSet 'B', 'B' :: s ∈ sufSet 'A') s hs))
            hnd hsub hrun
        · exact ih 'C' (path ++ ['C']) visited v (by decide)
            (fun s hs => by
              rw [List.append_assoc]
              exact hpath _ ((by decide : ∀ s ∈ sufSet 'C', 'C' :: s ∈ sufSet 'A') s hs))
            hnd hsub hrun
      · -- u = 'B'
        simp only [pfLoop, possB] at hrun
        rcases Nat.mod_two_eq_zero_or_one c with h2 | h2 <;>
          simp only [h2, h7, List.length_cons, List.length_nil, List.get, reduceIte,
            reduceDIte, Char.reduceEq] at hrun
        · exact ih 'C' (path ++ ['C']) visited v (by decide)
            (fun s hs => by
              rw [List.append_assoc]
              exact hpath _ ((by decide : ∀ s ∈ sufSet 'C', 'C' :: s ∈ sufSet 'B') s hs))
            hnd hsub hrun
        · exact ih 'D' (path ++ ['D']) visited v (by decide)
            (fun s hs => by
              rw [List.append_assoc]
              exact hpath _ ((by decide : ∀ s ∈ sufSet 'D', 'D' :: s ∈ sufSet 'B') s hs))
            hnd hsub hrun
      · -- u = 'C', single successor 'T'
        simp only [pfLoop, possC, h7, List.length_cons, List.length_nil, Nat.reduceAdd, Nat.mod_one,
          List.get, reduceIte, reduceDIte, Char.reduceEq] at hrun
        have hw : path ++ ['T'] ∈ sevenPaths := hpath ['T'] (by decide)
        by_cases hmem : path ++ ['T'] ∈ visited
        · rw [if_pos hmem] at hrun
          exact ih 'S' ['S'] visited v (by decide) (by decide) hnd hsub hrun
        · rw [if_neg hmem] at hrun
          refine ih 'S' ['S'] _ v (by decide) (by decide) (nodupPush _ _ hnd hmem) ?_ hrun
          intro x hx
          rcases List.mem_append.mp hx with h | h
          · exact hsub x h
          · rw [List.mem_singleton.mp h]; exact hw
      · -- u = 'D'
        simp only [pfLoop, possD] at hrun
        rcases Nat.mod_two_eq_zero_or_one c with h2 | h2 <;>
          simp only [h2, h7, List.length_cons, List.length_nil, List.get, reduceIte,
            reduceDIte, Char.reduceEq] at hrun
        · exact ih 'C' (path ++ ['C']) visited v (by decide)
            (fun s hs => by
              rw [List.append_assoc]
              exact hpath _ ((by decide : ∀ s ∈ sufSet 'C', 'C' :: s ∈ sufSet 'D') s hs))
            hnd hsub hrun
        · have hw : path ++ ['T'] ∈ sevenPaths := hpath ['T'] (by decide)
          by_cases hmem : path ++ ['T'] ∈ visited
          · rw [if_pos hmem] at hrun
            exact ih 'S' ['S'] visited v (by decide) (by decide) hnd hsub hrun
          · rw [if_neg hmem] at hrun
            refine ih 'S' ['S'] _ v (by decide) (by decide) (nodupPush _ _ hnd hmem) ?_ hrun
            intro x hx
            rcases List.mem_append.mp hx with h | h
            · exact hsub x h
            · rw [List.mem_singleton.mp h]; exact hw

lemma perm_sevenPaths {v : List (List Char)} (hnd : v.Nodup)
    (hsub : ∀ w ∈ v, w ∈ sevenPaths) (hlen : v.length = 7) : v.Perm sevenPaths :=
  (hnd.subperm fun w hw => hsub w hw).perm_of_length_le (by rw [hlen]; decide)

lemma dedupAux_nodup {α : Type} [DecidableEq α] :
    ∀ (l acc : List α), acc.Nodup → (l.foldl dedupPush acc).Nodup := by
  intro l
  induction l with
  | nil => intro acc h; exact h
  | cons x l ih =>
    intro acc h
    simp only [List.foldl_cons, dedupPush]
    by_cases hx : x ∈ acc
    · rw [if_pos hx]; exact ih acc h
    · rw [if_neg hx]; exact ih _ (nodupPush _ _ h hx)

lemma dedupAux_toFinset {α : Type} [DecidableEq α] :
    ∀ (l acc : List α), (l.foldl dedupPush acc).toFinset = acc.toFinset ∪ l.toFinset := by
  intro l
  induction l with
  | nil => intro acc; simp
  | cons x l ih =>
    intro acc
    simp only [List.foldl_cons, dedupPush, List.toFinset_cons]
    by_cases hx : x ∈ acc
    · rw [if_pos hx, ih]
      rw [Finset.union_insert,
        Finset.insert_eq_self.mpr (Finset.mem_union_left _ (List.mem_toFinset.mpr hx))]
    · rw [if_neg hx, ih, List.toFinset_append]
      ext a
      simp only [Finset.mem_union, Finset.mem_insert, Finset.mem_singleton,
        List.toFinset_cons, List.toFinset_nil, Finset.not_mem_empty, or_false]
      tauto

lemma dedupAux_of_nodup {α : Type} [DecidableEq α] :
    ∀ (l acc : List α), (∀ x ∈ l, x ∉ acc) → l.Nodup → l.foldl dedupPush acc = acc ++ l := by
  intro l
  induction l with
  | nil => intro acc _ _; simp
  | cons x l ih =>
    intro acc hdis hnd
    simp only [List.foldl_cons, dedupPush]
    rw [if_neg (hdis x (List.mem_cons_self x l))]
    rw [ih (acc ++ [x]) ?_ (List.nodup_cons.mp hnd).2]
    · rw [List.append_assoc]; rfl
    · intro y hy hmem
      rcases List.mem_append.mp hmem with h | h
      · exact hdis y (List.mem_cons_of_mem x hy) h
      · exact (List.nodup_cons.mp hnd).1 (by rwa [List.mem_singleton.mp h] at hy)

lemma dedupFold_of_nodup {α : Type} [DecidableEq α] (l : List α) (h : l.Nodup) :
    dedupFold l = l := by
  unfold dedupFold
  simpa using dedupAux_of_nodup l [] (by simp) h

lemma toFinset_sum_of_nodup : ∀ (l : List Int), l.Nodup → l.toFinset.sum id = l.sum := by
  intro l
  induction l with
  | nil => intro _; simp
  | cons x l ih =>
    intro h
    rw [List.toFinset_cons, Finset.sum_insert (by simpa using (List.nodup_cons.mp h).1),
      ih (List.nodup_cons.mp h).2, List.sum_cons]
    rfl

lemma keysCaps_set : ∀ (l : List EdgeRec) (i : Nat) (e e' : EdgeRec),
    l[i]? = some e → edgeKey e' = edgeKey e → keysCaps (l.set i e') = keysCaps l := by
  intro l
  induction l with
  | nil => intro i e e' hg _; simp at hg
  | cons a l ih =>
    intro i e e' hg hk
    cases i with
    | zero =>
      simp only [List.getElem?_cons_zero, Option.some.injEq] at hg
      subst hg
      simp only [List.set, keysCaps, List.map_cons, hk]
    | succ i =>
      simp only [List.getElem?_cons_succ] at hg
      simp only [List.set, keysCaps, List.map_cons]
      rw [show List.map edgeKey (l.set i e') = keysCaps (l.set i e') from rfl, ih i e e' hg hk]
      rfl

lemma updateLoop_keysCaps (rc : Int) : ∀ (idxs : List Nat) (es : List EdgeRec),
    keysCaps (updateLoop rc es idxs) = keysCaps es := by
  intro idxs
  induction idxs with
  | nil => intro es; rfl
  | cons i rest ih =>
    intro es
    cases hg : es[i]? with
    | none => simp [updateLoop, hg]
    | some e =>
      simp only [updateLoop, hg]
      split
      · split
        · rfl
        · rw [ih, keysCaps_set es i e
            { e with flow := e.flow + rc, residual := e.residual - rc } hg rfl]
      · rfl

lemma findKC_mem (a b : Char) : ∀ (kcs : List (Char × Char × Int)) (j i : Nat)
    (k : Char × Char × Int), findKC a b kcs j = some (i, k) → k ∈ kcs := by
  intro kcs
  induction kcs with
  | nil => intro j i k h; exact absurd h (by simp [findKC])
  | cons hd tl ih =>
    intro j i k h
    unfold findKC at h
    by_cases hm : matchesPair a b hd = true
    · rw [if_pos hm] at h
      obtain rfl : hd = k := congrArg Prod.snd (Option.some.inj h)
      exact List.mem_cons_self hd tl
    · rw [if_neg hm] at h
      exact List.mem_cons_of_mem hd (ih (j + 1) i k h)

lemma rcStep_nonneg (kcs : List (Char × Char × Int)) (hc : ∀ k ∈ kcs, 0 ≤ k.2.2)
    (acc : RCRes) (pr : Char × Char) (ha : 0 ≤ acc.rc) : 0 ≤ (rcStep kcs acc pr).rc := by
  unfold rcStep
  split
  · exact ha
  · cases hf : findKC pr.1 pr.2 kcs 0 with
    | none => simpa using ha
    | some ik =>
      obtain ⟨i, k⟩ := ik
      have hk := hc k (findKC_mem pr.1 pr.2 kcs 0 i k hf)
      simp only [hf]
      split
      · exact hk
      · split
        · exact hk
        · exact ha

lemma rcFoldAux_nonneg (kcs : List (Char × Char × Int)) (hc : ∀ k ∈ kcs, 0 ≤ k.2.2) :
    ∀ (pairs : List (Char × Char)) (acc : RCRes),
    0 ≤ acc.rc → 0 ≤ (pairs.foldl (rcStep kcs) acc).rc := by
  intro pairs
  induction pairs with
  | nil => intro acc ha; exact ha
  | cons pr pairs ih =>
    intro acc ha
    exact ih _ (rcStep_nonneg kcs hc acc pr ha)

lemma rcFold_nonneg (kcs : List (Char × Char × Int)) (pairs : List (Char × Char))
    (hc : ∀ k ∈ kcs, 0 ≤ k.2.2) : 0 ≤ (rcFold kcs pairs).rc :=
  rcFoldAux_nonneg kcs hc pairs ⟨[], 0, none, true⟩ (by simp)

lemma sevenPaths_rcFacts : ∀ p ∈ sevenPaths,
    (rcFold (keysCaps sampleEdges) (pathPairs p)).ok = true ∧
    (rcFold (keysCaps sampleEdges) (pathPairs p)).setOpt.isSome = true := by decide

lemma processPath_eq (s : FNState) (p : List Char) (k' : Char × Char)
    (hcr : s.crashed = false)
    (hok : (rcFold (keysCaps s.edges) (pathPairs p)).ok = true)
    (hso : (rcFold (keysCaps s.edges) (pathPairs p)).setOpt = some k') :
    processPath s p =
      if (rcFold (keysCaps s.edges) (pathPairs p)).rc ∈ s.maxflow then
        { s with lastFull := some k' }
      else
        { edges := updateLoop (rcFold (keysCaps s.edges) (pathPairs p)).rc s.edges
            (rcFold (keysCaps s.edges) (pathPairs p)).idxs,
          maxflow := s.maxflow ++ [(rcFold (keysCaps s.edges) (pathPairs p)).rc],
          lastFull := some k',
          crashed := false } := by
  unfold processPath
  rw [hcr]
  simp only [Bool.false_eq_true, if_false, hok, hso, Bool.true_eq_false, reduceIte]

lemma fnFold_inv : ∀ (v : List (List Char)) (s : FNState),
    (∀ p ∈ v, p ∈ sevenPaths) → s.crashed = false →
    keysCaps s.edges = keysCaps sampleEdges →
    (v.foldl processPath s).crashed = false ∧
    (v.foldl processPath s).maxflow = (v.map rcOf).foldl dedupPush s.maxflow ∧
    keysCaps (v.foldl processPath s).edges = keysCaps sampleEdges := by
  intro v
  induction v with
  | nil => intro s _ hcr hk; exact ⟨hcr, rfl, hk⟩
  | cons p v ih =>
    intro s hv hcr hk
    have hp := hv p (List.mem_cons_self p v)
    have hok : (rcFold (keysCaps s.edges) (pathPairs p)).ok = true := by
      rw [hk]; exact (sevenPaths_rcFacts p hp).1
    obtain ⟨k', hk'⟩ : ∃ k', (rcFold (keysCaps s.edges) (pathPairs p)).setOpt = some k' := by
      rw [hk]; exact Option.isSome_iff_exists.mp (sevenPaths_rcFacts p hp).2
    have hrc : (rcFold (keysCaps s.edges) (pathPairs p)).rc = rcOf p := by
      rw [hk]; rfl
    rw [List.foldl_cons, processPath_eq s p k' hcr hok hk']
    by_cases hdup : (rcFold (keysCaps s.edges) (pathPairs p)).rc ∈ s.maxflow
    · rw [if_pos hdup]
      obtain ⟨h1, h2, h3⟩ := ih { s with lastFull := some k' }
        (fun q hq => hv q (List.mem_cons_of_mem p hq)) hcr hk
      refine ⟨h1, ?_, h3⟩
      rw [h2]
      simp only [List.map_cons, List.foldl_cons, dedupPush]
      rw [if_pos (hrc ▸ hdup)]
    · rw [if_neg hdup]
      have hkeys : keysCaps (updateLoop (rcFold (keysCaps s.edges) (pathPairs p)).rc s.edges
          (rcFold (keysCaps s.edges) (pathPairs p)).idxs) = keysCaps sampleEdges := by
        rw [updateLoop_keysCaps, hk]
      obtain ⟨h1, h2, h3⟩ := ih
        { edges := updateLoop (rcFold (keysCaps s.edges) (pathPairs p)).rc s.edges
            (rcFold (keysCaps s.edges) (pathPairs p)).idxs,
          maxflow := s.maxflow ++ [(rcFold (keysCaps s.edges) (pathPairs p)).rc],
          lastFull := some k', crashed := false }
        (fun q hq => hv q (List.mem_cons_of_mem p hq)) rfl hkeys
      refine ⟨h1, ?_, h3⟩
      rw [h2]
      simp only [List.map_cons, List.foldl_cons, dedupPush]
      rw [if_neg (hrc ▸ hdup), hrc]

lemma mem_of_getElemQ : ∀ (l : List EdgeRec) (i : Nat) (e : EdgeRec),
    l[i]? = some e → e ∈ l := by
  intro l
  induction l with
  | nil => intro i e h; simp at h
  | cons a l ih =>
    intro i e h
    cases i with
    | zero =>
      simp only [List.getElem?_cons_zero, Option.some.injEq] at h
      exact h ▸ List.mem_cons_self a l
    | succ i =>
      simp only [List.getElem?_cons_succ] at h
      exact List.mem_cons_of_mem a (ih i e h)

lemma updateLoop_flowInv (rc : Int) (hrc : 0 ≤ rc) :
    ∀ (idxs : List Nat) (es : List EdgeRec), flowInv es → flowInv (updateLoop rc es idxs) := by
  intro idxs
  induction idxs with
  | nil => intro es h; exact h
  | cons i rest ih =>
    intro es h
    cases hg : es[i]? with
    | none => simpa only [updateLoop, hg] using h
    | some e =>
      simp only [updateLoop, hg]
      split
      · split
        · exact h
        · rename_i hne hle
          apply ih
          intro x hx
          rcases List.mem_or_eq_of_mem_set hx with hx' | rfl
          · exact h x hx'
          · have he := h e (mem_of_getElemQ es i e hg)
            constructor
            · simp only
              omega
            · simp only
              omega
      · exact h

lemma capsNonneg_of_flowInv (es : List EdgeRec) (h : flowInv es) :
    ∀ k ∈ keysCaps es, 0 ≤ k.2.2 := by
  intro k hk
  obtain ⟨e, he, rfl⟩ := List.mem_map.mp hk
  exact le_trans (h e he).1 (h e he).2

lemma processPath_flowInv (s : FNState) (p : List Char) (h : flowInv s.edges) :
    flowInv (processPath s p).edges := by
  unfold processPath
  split
  · exact h
  · dsimp only
    split
    · exact h
    · split
      · split
        · exact h
        · exact h
      · exact updateLoop_flowInv _
          (rcFold_nonneg (keysCaps s.edges) (pathPairs p) (capsNonneg_of_flowInv s.edges h))
          _ s.edges h

lemma fn_flowInv : ∀ (v : List (List Char)) (s : FNState), flowInv s.edges →
    flowInv ((v.foldl processPath s)).edges := by
  intro v
  induction v with
  | nil => intro s h; exact h
  | cons p v ih =>
    intro s h
    rw [List.foldl_cons]
    exact ih (processPath s p) (processPath_flowInv s p h)

lemma processPath_keysCaps (s : FNState) (p : List Char) :
    keysCaps (processPath s p).edges = keysCaps s.edges := by
  unfold processPath
  split
  · rfl
  · dsimp only
    split
    · rfl
    · split
      · split
        · rfl
        · rfl
      · exact updateLoop_keysCaps _ _ s.edges

lemma capsNonneg_of_keysCaps (es es' : List EdgeRec) (hk : keysCaps es' = keysCaps es)
    (h : capsNonneg es) : capsNonneg es' := by
  intro e' he'
  have : edgeKey e' ∈ keysCaps es := hk ▸ List.mem_map_of_mem edgeKey he'
  obtain ⟨e, he, hke⟩ := List.mem_map.mp this
  have : e.capacity = e'.capacity := congrArg (fun k => k.2.2) hke
  exact this ▸ h e he

lemma flowsLe_refl (es : List EdgeRec) : flowsLe es es :=
  List.forall₂_same.mpr fun x _ => le_refl x.flow

lemma flowsLe_trans {a b c : List EdgeRec} (h1 : flowsLe a b) (h2 : flowsLe b c) :
    flowsLe a c := by
  induction h1 generalizing c with
  | nil => cases h2; exact List.Forall₂.nil
  | cons h t ih =>
    cases h2 with
    | cons h' t' => exact List.Forall₂.cons (le_trans h h') (ih t')

lemma flowsLe_set : ∀ (es : List EdgeRec) (i : Nat) (e e' : EdgeRec),
    es[i]? = some e → e.flow ≤ e'.flow → flowsLe es (es.set i e') := by
  intro es
  induction es with
  | nil => intro i e e' hg _; simp at hg
  | cons a l ih =>
    intro i e e' hg hle
    cases i with
    | zero =>
      simp only [List.getElem?_cons_zero, Option.some.injEq] at hg
      subst hg
      exact List.Forall₂.cons hle (flowsLe_refl l)
    | succ i =>
      simp only [List.getElem?_cons_succ] at hg
      exact List.Forall₂.cons (le_refl a.flow) (ih i e e' hg hle)

lemma updateLoop_flowsLe (rc : Int) (hrc : 0 ≤ rc) :
    ∀ (idxs : List Nat) (es : List EdgeRec), flowsLe es (updateLoop rc es idxs) := by
  intro idxs
  induction idxs with
  | nil => intro es; exact flowsLe_refl es
  | cons i rest ih =>
    intro es
    cases hg : es[i]? with
    | none => simp only [updateLoop, hg]; exact flowsLe_refl es
    | some e =>
      simp only [updateLoop, hg]
      split
      · split
        · exact flowsLe_refl es
        · exact flowsLe_trans
            (flowsLe_set es i e _ hg (by simp only; omega)) (ih _)
      · exact flowsLe_refl es

lemma processPath_flowsLe (s : FNState) (p : List Char) (h : capsNonneg s.edges) :
    flowsLe s.edges (processPath s p).edges := by
  unfold processPath
  split
  · exact flowsLe_refl s.edges
  · dsimp only
    split
    · exact flowsLe_refl s.edges
    · split
      · split
        · exact flowsLe_refl s.edges
        · exact flowsLe_refl s.edges
      · refine updateLoop_flowsLe _ ?_ _ s.edges
        refine rcFold_nonneg (keysCaps s.edges) (pathPairs p) ?_
        intro k hk
        obtain ⟨e, he, rfl⟩ := List.mem_map.mp hk
        exact h e he

lemma fn_flowsLe : ∀ (v : List (List Char)) (s : FNState), capsNonneg s.edges →
    flowsLe s.edges ((v.foldl processPath s)).edges := by
  intro v
  induction v with
  | nil => intro s _; exact flowsLe_refl s.edges
  | cons p v ih =>
    intro s h
    rw [List.foldl_cons]
    refine flowsLe_trans (processPath_flowsLe s p h) (ih (processPath s p) ?_)
    exact capsNonneg_of_keysCaps s.edges _ (processPath_keysCaps s p) h

lemma pfLoop_le7 : ∀ (cs : List Nat) (es : List EdgeRec) (src snk u : Char)
    (path : List Char) (visited v : List (List Char)),
    visited.length ≤ 7 →
    pfLoop es src snk cs u path visited = some v → v.length ≤ 7 := by
  intro cs
  induction cs with
  | nil =>
    intro es src snk u path visited v h7 hrun
    simp only [pfLoop] at hrun
    split at hrun
    · exact (Option.some.inj hrun) ▸ h7
    · split at hrun
      · exact (Option.some.inj hrun) ▸ h7
      · split at hrun
        · exact (Option.some.inj hrun) ▸ h7
        · cases hrun
  | cons c cs ih =>
    intro es src snk u path visited v h7 hrun
    simp only [pfLoop] at hrun
    split at hrun
    · exact (Option.some.inj hrun) ▸ h7
    · split at hrun
      · exact (Option.some.inj hrun) ▸ h7
      · rename_i husnk hne7
        split at hrun
        · exact (Option.some.inj hrun) ▸ h7
        · split at hrun
          · refine ih es src snk src [src] _ v ?_ hrun
            split
            · exact h7
            · rw [List.length_append]
              simp only [List.length_cons, List.length_nil]
              omega
          · exact ih es src snk _ _ visited v h7 hrun

lemma possCycS : List.filter (fun e => e.src == 'S') cycEdges = [⟨'S', 'A', 5, 0, 5⟩] := rfl

lemma possCycA : List.filter (fun e => e.src == 'A') cycEdges = [⟨'A', 'S', 5, 0, 5⟩] := rfl

lemma pfLoop_cyc : ∀ (cs : List Nat) (u : Char) (path : List Char),
    (u = 'S' ∨ u = 'A') → pfLoop cycEdges 'S' 'T' cs u path [] = none := by
  intro cs
  induction cs with
  | nil =>
    intro u path hu
    rcases hu with rfl | rfl <;> simp [pfLoop, possCycS, possCycA]
  | cons c cs ih =>
    intro u path hu
    rcases hu with rfl | rfl
    · simp only [pfLoop, possCycS, List.length_cons, List.length_nil, Nat.reduceAdd,
        Nat.mod_one, Nat.zero_mod, List.get, Char.reduceEq, reduceIte, reduceDIte]
      exact ih 'A' (path ++ ['A']) (Or.inr rfl)
    · simp only [pfLoop, possCycA, List.length_cons, List.length_nil, Nat.reduceAdd,
        Nat.mod_one, Nat.zero_mod, List.get, Char.reduceEq, reduceIte, reduceDIte]
      exact ih 'S' (path ++ ['S']) (Or.inl rfl)

lemma pfLoop_zeros_step : ∀ (k : Nat) (visited : List (List Char)), visited.length ≠ 7 →
    pfLoop sampleEdges 'S' 'T' (List.replicate (k + 4) 0) 'S' ['S'] visited =
      pfLoop sampleEdges 'S' 'T' (List.replicate k 0) 'S' ['S']
        (if ['S', 'A', 'B', 'C', 'T'] ∈ visited then visited
         else visited ++ [['S', 'A', 'B', 'C', 'T']]) := by
  intro k visited h7
  rw [show k + 4 = k + 3 + 1 by omega, List.replicate_succ,
    show k + 3 = k + 2 + 1 by omega, List.replicate_succ,
    show k + 2 = k + 1 + 1 by omega, List.replicate_succ, List.replicate_succ]
  simp only [pfLoop, possS, possA, possB, possC, h7, List.length_cons, List.length_nil,
    Nat.reduceAdd, Nat.mod_one, Nat.zero_mod, List.get, Char.reduceEq, reduceIte, reduceDIte,
    List.cons_append, List.nil_append, List.singleton_append]
  norm_num

lemma pfLoop_zeros_sabct : ∀ (n : Nat),
    pfLoop sampleEdges 'S' 'T' (List.replicate n 0) 'S' ['S']
      [['S', 'A', 'B', 'C', 'T']] = none := by
  intro n
  induction n using Nat.strong_induction_on with
  | _ n ih =>
    by_cases h0 : n < 4
    · interval_cases n <;> decide
    · obtain ⟨k, rfl⟩ : ∃ k, n = k + 4 := ⟨n - 4, by omega⟩
      rw [pfLoop_zeros_step k _ (by decide),
        if_pos (by decide : (['S', 'A', 'B', 'C', 'T'] : List Char) ∈ [['S', 'A', 'B', 'C', 'T']])]
      exact ih k (by omega)

lemma pfRun_zeros (n : Nat) : pfRun sampleEdges 'S' 'T' (List.replicate n 0) = none := by
  by_cases h0 : n < 4
  · interval_cases n <;> decide
  · obtain ⟨k, rfl⟩ : ∃ k, n = k + 4 := ⟨n - 4, by omega⟩
    show pfLoop sampleEdges 'S' 'T' (List.replicate (k + 4) 0) 'S' ['S'] [] = none
    rw [pfLoop_zeros_step k [] (by decide), if_neg (by decide)]
    exact pfLoop_zeros_sabct k

set_option maxHeartbeats 1600000 in
lemma fnRun_vOrder1 : fnRun vOrder1 sampleEdges = runA4 := by
  show List.foldl processPath ⟨sampleEdges, [], none, false⟩ (dedupFold vOrder1) = runA4
  rw [show dedupFold vOrder1 = vOrder1 from by decide]
  show List.foldl processPath ⟨sampleEdges, [], none, false⟩
    (['S', 'A', 'C', 'T'] :: ['S', 'B', 'D', 'C', 'T'] :: ['S', 'A', 'B', 'C', 'T'] ::
     ['S', 'A', 'B', 'D', 'T'] :: ['S', 'B', 'C', 'T'] :: ['S', 'B', 'D', 'T'] ::
     ['S', 'A', 'B', 'D', 'C', 'T'] :: []) = runA4
  rw [List.foldl_cons,
    show processPath ⟨sampleEdges, [], none, false⟩ ['S', 'A', 'C', 'T'] = runA1 from by decide,
    List.foldl_cons,
    show processPath runA1 ['S', 'B', 'D', 'C', 'T'] = runA2 from by decide,
    List.foldl_cons,
    show processPath runA2 ['S', 'A', 'B', 'C', 'T'] = runA3 from by decide,
    List.foldl_cons,
    show processPath runA3 ['S', 'A', 'B', 'D', 'T'] = runA4 from by decide,
    List.foldl_cons,
    show processPath runA4 ['S', 'B', 'C', 'T'] = runA3 from by decide,
    List.foldl_cons,
    show processPath runA3 ['S', 'B', 'D', 'T'] = runA4 from by decide,
    List.foldl_cons,
    show processPath runA4 ['S', 'A', 'B', 'D', 'C', 'T'] = runA4 from by decide,
    List.foldl_nil]

set_option maxHeartbeats 1600000 in
lemma fnRun_vOrder2 : fnRun vOrder2 sampleEdges = runB4 := by
  show List.foldl processPath ⟨sampleEdges, [], none, false⟩ (dedupFold vOrder2) = runB4
  rw [show dedupFold vOrder2 = vOrder2 from by decide]
  show List.foldl processPath ⟨sampleEdges, [], none, false⟩
    (['S', 'B', 'D', 'T'] :: ['S', 'A', 'C', 'T'] :: ['S', 'A', 'B', 'C', 'T'] ::
     ['S', 'A', 'B', 'D', 'T'] :: ['S', 'B', 'C', 'T'] :: ['S', 'B', 'D', 'C', 'T'] ::
     ['S', 'A', 'B', 'D', 'C', 'T'] :: []) = runB4
  rw [List.foldl_cons,
    show processPath ⟨sampleEdges, [], none, false⟩ ['S', 'B', 'D', 'T'] = runB1 from by decide,
    List.foldl_cons,
    show processPath runB1 ['S', 'A', 'C', 'T'] = runB2 from by decide,
    List.foldl_cons,
    show processPath runB2 ['S', 'A', 'B', 'C', 'T'] = runB3 from by decide,
    List.foldl_cons,
    show processPath runB3 ['S', 'A', 'B', 'D', 'T'] = runB4 from by decide,
    List.foldl_cons,
    show processPath runB4 ['S', 'B', 'C', 'T'] = runB3 from by decide,
    List.foldl_cons,
    show processPath runB3 ['S', 'B', 'D', 'C', 'T'] = runB4 from by decide,
    List.foldl_cons,
    show processPath runB4 ['S', 'A', 'B', 'D', 'C', 'T'] = runB4 from by decide,
    List.foldl_nil]

/-- C1: for the sample graph, every complete run of the computation — path
finding under any random choices for which `path_finder` stops, followed by
`flow_network` — raises no exception and reports a total flow of exactly 12
(the `sum(maxflow)` printed at line 213). -/
theorem C1_sample_run_total_flow_12 (cs : List Nat) (v : List (List Char))
    (h : pfRun sampleEdges 'S' 'T' cs = some v) :
    (fnRun v sampleEdges).crashed = false ∧ (fnRun v sampleEdges).maxflow.sum = 12 := by
  obtain ⟨hnd, hsub, hlen⟩ := pfLoop_sample cs 'S' ['S'] [] v (by decide) (by decide)
    List.nodup_nil (fun w hw => absurd hw (List.not_mem_nil w)) h
  have hperm := perm_sevenPaths hnd hsub hlen
  unfold fnRun
  rw [dedupFold_of_nodup v hnd]
  obtain ⟨hcr, hmf, _⟩ := fnFold_inv v ⟨sampleEdges, [], none, false⟩ hsub rfl rfl
  refine ⟨hcr, ?_⟩
  rw [hmf]
  rw [show (v.map rcOf).foldl dedupPush [] = dedupFold (v.map rcOf) from rfl]
  have hnd2 : (dedupFold (v.map rcOf)).Nodup := dedupAux_nodup _ [] List.nodup_nil
  have hfin : (dedupFold (v.map rcOf)).toFinset = (v.map rcOf).toFinset := by
    rw [show dedupFold (v.map rcOf) = (v.map rcOf).foldl dedupPush [] from rfl,
      dedupAux_toFinset]
    simp
  rw [← toFinset_sum_of_nodup _ hnd2, hfin,
    List.toFinset_eq_of_perm _ _ (hperm.map rcOf)]
  decide

set_option maxHeartbeats 1600000 in
/-- C1 witness: the concrete complete run with choices `cs1`, which visits the
seven paths in the order `vOrder1`. -/
theorem C1_witness_run :
    (fnRun vOrder1 sampleEdges).crashed = false ∧
    (fnRun vOrder1 sampleEdges).maxflow.sum = 12 :=
  C1_sample_run_total_flow_12 cs1 vOrder1 (by decide)

set_option maxHeartbeats 1600000 in
/-- C2: the computation is not deterministic.  Two runs on the identical sample
graph, differing only in the random choices made by `path_finder`, both
complete yet end with different per-edge flow assignments (the first leaves
`D→C` at 3 and `D→T` at 0, the second `D→C` at 0 and `D→T` at 3). -/
theorem C2_random_choice_changes_flow_assignment :
    pfRun sampleEdges 'S' 'T' cs1 = some vOrder1 ∧
    pfRun sampleEdges 'S' 'T' cs2 = some vOrder2 ∧
    (fnRun vOrder1 sampleEdges).edges ≠ (fnRun vOrder2 sampleEdges).edges := by
  refine ⟨by decide, by decide, ?_⟩
  rw [fnRun_vOrder1, fnRun_vOrder2]
  decide

/-- C3: `0 ≤ flow ≤ capacity` holds for every edge at every point of the
computation: each guarded mutation pass of the update loop preserves the
invariant (hence it holds after every prefix of the mutations), and so does a
whole `flow_network` run on any visited list. -/
theorem C3_flow_within_capacity_invariant :
    (∀ (es : List EdgeRec) (rc : Int) (idxs : List Nat),
      flowInv es → 0 ≤ rc → flowInv (updateLoop rc es idxs)) ∧
    (∀ (visited : List (List Char)) (es : List EdgeRec),
      flowInv es → flowInv (fnRun visited es).edges) :=
  ⟨fun es rc idxs h hrc => updateLoop_flowInv rc hrc idxs es h,
   fun visited es h => fn_flowInv (dedupFold visited) ⟨es, [], none, false⟩ h⟩

set_option maxHeartbeats 1600000 in
/-- C3 witness: the invariant holds for the state reached after the first two
paths of the `vOrder1` run on the sample graph. -/
theorem C3_witness_sample : flowInv (fnRun (vOrder1.take 2) sampleEdges).edges :=
  C3_flow_within_capacity_invariant.2 (vOrder1.take 2) sampleEdges (by decide)

/-- C4: flow conservation fails at termination.  After the complete run that
visits the paths in the order `vOrder1`, node `C` receives 12 units of flow
but forwards only 9. -/
theorem C4_conservation_violated_at_C :
    pfRun sampleEdges 'S' 'T' cs1 = some vOrder1 ∧
    (fnRun vOrder1 sampleEdges).crashed = false ∧
    inflow (fnRun vOrder1 sampleEdges).edges 'C' = 12 ∧
    outflow (fnRun vOrder1 sampleEdges).edges 'C' = 9 := by
  refine ⟨by decide, ?_, ?_, ?_⟩
  · rw [fnRun_vOrder1]; decide
  · rw [fnRun_vOrder1]; decide
  · rw [fnRun_vOrder1]; decide

set_option maxHeartbeats 1600000 in
/-- C5: the bottleneck-and-update step is not atomic.  In the `vOrder1` run the
second processed path `S→B→D→C→T` (bottleneck value 3, duly appended to
`maxflow`) has its first three edges increased by 3 while its final edge `C→T`
is left untouched (flow 8 before and after the path is processed): a partial
update of the path. -/
theorem C5_partial_path_update :
    pfRun sampleEdges 'S' 'T' cs1 = some vOrder1 ∧
    vOrder1.take 2 = [['S', 'A', 'C', 'T'], ['S', 'B', 'D', 'C', 'T']] ∧
    (fnRun (vOrder1.take 2) sampleEdges).maxflow = [8, 3] ∧
    flowOf (fnRun (vOrder1.take 2) sampleEdges).edges 'S' 'B' = 3 ∧
    flowOf (fnRun (vOrder1.take 2) sampleEdges).edges 'D' 'C' = 3 ∧
    flowOf (fnRun (vOrder1.take 1) sampleEdges).edges 'C' 'T' = 8 ∧
    flowOf (fnRun (vOrder1.take 2) sampleEdges).edges 'C' 'T' = 8 := by decide

set_option maxHeartbeats 1600000 in
/-- C6: the amount applied to a path is not the minimum of the residual
capacities at processing time.  When `S→B→D→C→T` is processed after
`S→A→C→T`, the residuals (`capacity - flow`) along its arcs are `[9, 3, 8, 2]`
— minimum 2, at `C→T` — but the code computes `residual_capacity = 3` from the
static capacities and applies 3 to the edges it updates. -/
theorem C6_bottleneck_ignores_current_flow :
    pfRun sampleEdges 'S' 'T' cs1 = some vOrder1 ∧
    residualsAlong (fnRun (vOrder1.take 1) sampleEdges).edges
      (pathPairs ['S', 'B', 'D', 'C', 'T']) = [9, 3, 8, 2] ∧
    (residualsAlong (fnRun (vOrder1.take 1) sampleEdges).edges
      (pathPairs ['S', 'B', 'D', 'C', 'T'])).min? = some 2 ∧
    (rcFold (keysCaps (fnRun (vOrder1.take 1) sampleEdges).edges)
      (pathPairs ['S', 'B', 'D', 'C', 'T'])).rc = 3 ∧
    flowOf (fnRun (vOrder1.take 2) sampleEdges).edges 'S' 'B' = 3 := by decide

/-- C7: on a graph whose sink is unreachable from the source the computation
need not complete at all, let alone return 0: with edges `S→A, A→S, B→T` the
random walk cycles between `S` and `A` forever, whatever choices are drawn. -/
theorem C7_unreachable_sink_nontermination :
    ∀ (cs : List Nat), pfRun cycEdges 'S' 'T' cs = none :=
  fun cs => pfLoop_cyc cs 'S' ['S'] (Or.inl rfl)

/-- C8: the search loop can run forever even on the sample graph with finite
non-negative integer capacities: the choice stream that always picks the first
outgoing edge keeps finding the same path `S→A→B→C→T` and never stops. -/
theorem C8_search_loop_can_run_forever :
    ∀ (n : Nat), pfRun sampleEdges 'S' 'T' (List.replicate n 0) = none :=
  pfRun_zeros

/-- C9: the path finder records at most 7 paths: whenever the visited list has
length 7 it stops at once, returning it unchanged, and every completed run
started from an empty visited list returns at most 7 paths. -/
theorem C9_visited_capped_at_7 :
    (∀ (es : List EdgeRec) (src snk u : Char) (path : List Char)
      (visited : List (List Char)) (cs : List Nat), visited.length = 7 →
      pfLoop es src snk cs u path visited = some visited) ∧
    (∀ (es : List EdgeRec) (src snk : Char) (cs : List Nat) (v : List (List Char)),
      pfRun es src snk cs = some v → v.length ≤ 7) := by
  constructor
  · intro es src snk u path visited cs h7
    cases cs <;> simp [pfLoop, h7]
  · intro es src snk cs v h
    exact pfLoop_le7 cs es src snk src [src] [] v (by simp) h

set_option maxHeartbeats 1600000 in
/-- C9 witness: with seven visited paths the finder stops immediately even with
choices left over, and the concrete complete run `cs1` yields 7 paths. -/
theorem C9_witness_sample :
    pfLoop sampleEdges 'S' 'T' [9, 9, 9] 'S' ['S'] sevenPaths = some sevenPaths ∧
    vOrder1.length ≤ 7 :=
  ⟨C9_visited_capped_at_7.1 sampleEdges 'S' 'T' 'S' ['S'] sevenPaths [9, 9, 9] (by decide),
   C9_visited_capped_at_7.2 sampleEdges 'S' 'T' cs1 vOrder1 (by decide)⟩

/-- C10: edge flows never decrease.  Every update-loop pass with the
non-negative path amount only adds to flows, and a whole `flow_network` run on
a graph with non-negative capacities leaves every edge's flow at least its
initial value. -/
theorem C10_flow_monotone :
    (∀ (es : List EdgeRec) (rc : Int) (idxs : List Nat),
      0 ≤ rc → flowsLe es (updateLoop rc es idxs)) ∧
    (∀ (visited : List (List Char)) (es : List EdgeRec),
      capsNonneg es → flowsLe es (fnRun visited es).edges) :=
  ⟨fun es rc idxs hrc => updateLoop_flowsLe rc hrc idxs es,
   fun visited es h => fn_flowsLe (dedupFold visited) ⟨es, [], none, false⟩ h⟩

/-- C10 witness: monotonicity on the sample graph across the first two paths
of the `vOrder1` run. -/
theorem C10_witness_sample :
    flowsLe sampleEdges (fnRun (vOrder1.take 2) sampleEdges).edges :=
  C10_flow_monotone.2 (vOrder1.take 2) sampleEdges (by decide)
